import Mathlib

set_option autoImplicit false

/-! Verification of the hashdict library (`hashdict.h` / `hashdict.c`):
a string-keyed, string-valued hash table with 1024 buckets and chained
collision resolution, compiled with `DEBUG` defined (so the `collisions`
and `alloced_bytes` diagnostic fields are present).

Conventions of the shallow embedding:

* A C string is the list of its bytes before the terminating NUL, each
  byte in `[1, 256)` (`validCStr`); `strlen` is `List.length`.
* `char` is signed on the reference target (x86-64 Linux), so reading a
  key byte through `int c = *key++` sign-extends bytes `≥ 0x80`
  (`signExtChar`).
* `unsigned long` arithmetic wraps modulo `2 ^ 64`; the hash loop models
  that wrap explicitly.  The entry counter and the diagnostic byte
  counter are modelled as unbounded `Nat` / `Int`: their fixed width is
  never exercised by the properties considered here.
* `sizeof(char *) = 8` and `sizeof(struct hd_entry) = 24` (three
  pointers) on the reference target.
* A bucket's collision chain (nodes linked through `next`) is a `List`,
  in link order; the bucket array is a function `Fin HASHSIZE → List hd_entry`.
* The outcome of each `malloc` / `hd_stralloc` call is an explicit
  boolean parameter in the models of the allocation-failure paths; the
  plain models describe the executions in which allocation succeeds.
-/

namespace Hashdict

/-- Number of hash buckets (`#define HASHSIZE 1024`). -/
def HASHSIZE : Nat := 1024

/-- Size of a `char *` field on the 64-bit reference target. -/
def PTRSIZE : Nat := 8

/-- Size of `struct hd_entry` (three pointer fields) on the target. -/
def ENTRYSIZE : Nat := 24

/-- The modulus of `unsigned long` arithmetic. -/
def U64 : Nat := 2 ^ 64

/-- A C string: the bytes before the terminating NUL. -/
abbrev CStr : Type := List Nat

/-- A list of bytes denotes a C string iff every byte is nonzero and
fits in eight bits. -/
def validCStr (s : CStr) : Prop := ∀ b ∈ s, 0 < b ∧ b < 256

instance (s : CStr) : Decidable (validCStr s) :=
  inferInstanceAs (Decidable (∀ b ∈ s, 0 < b ∧ b < 256))

/-- Value of `int c = *key++` at a byte `b`: `char` is signed on the
reference target, so bytes `≥ 0x80` are read sign-extended. -/
def signExtChar (b : Nat) : Int :=
  if b < 128 then (b : Int) else (b : Int) - 256

/-- One iteration of the loop of `hd_hash`:
`hash = ((hash << 5) + hash) + c` in `unsigned long` arithmetic. -/
def hd_hash_step (h b : Nat) : Nat :=
  (((h : Int) * 33 + signExtChar b) % (U64 : Int)).toNat

/-- The loop of `hd_hash` over the key's bytes. -/
def hd_hash_loop (h : Nat) : CStr → Nat
  | [] => h
  | b :: bs => hd_hash_loop (hd_hash_step h b) bs

/-- `hd_hash`: djb2 starting from 5381, folded modulo `HASHSIZE`. -/
def hd_hash (key : CStr) : Nat :=
  hd_hash_loop 5381 key % HASHSIZE

/-- The payload of a `struct hd_entry`: owned copies of key and value.
The `next` pointer is represented by the node's position in its bucket's
chain list. -/
structure hd_entry where
  key : CStr
  value : CStr
deriving DecidableEq

/-- `struct hd_hashdict`: the bucket array, the entry count and the two
`DEBUG` diagnostic counters. -/
structure hd_hashdict where
  entries : Fin HASHSIZE → List hd_entry
  num_entries : Nat
  collisions : Nat
  alloced_bytes : Int

theorem hd_hash_lt (key : CStr) : hd_hash key < HASHSIZE :=
  Nat.mod_lt _ (by decide)

/-- The bucket index of a key, as an index into the bucket array. -/
def hashIdx (key : CStr) : Fin HASHSIZE :=
  ⟨hd_hash key, hd_hash_lt key⟩

/-- The chain walk of `hd_lookup_entry`: the first node whose key
compares equal under `strcmp`, or `none` at the end of the chain. -/
def findEntry (key : CStr) : List hd_entry → Option hd_entry
  | [] => none
  | e :: es => if e.key = key then some e else findEntry key es

/-- `hd_lookup_entry`, for non-null `dict` and `key`: short-circuits on
an empty table, otherwise walks the chain of bucket `hd_hash key`. -/
def hd_lookup_entry (dict : hd_hashdict) (key : CStr) : Option hd_entry :=
  if dict.num_entries = 0 then none
  else findEntry key (dict.entries (hashIdx key))

/-- `hd_lookup`: the value of the entry found, if any. -/
def hd_lookup (dict : hd_hashdict) (key : CStr) : Option CStr :=
  (hd_lookup_entry dict key).map hd_entry.value

/-- `hd_create`: the empty dictionary, all counters zero. -/
def hd_create : hd_hashdict :=
  { entries := fun _ => [], num_entries := 0, collisions := 0, alloced_bytes := 0 }

/-- The return status of the mutating operations
(`0`, `-EINVAL`, `-ENOMEM`). -/
inductive hd_status where
  | ok
  | EINVAL
  | ENOMEM
deriving DecidableEq

/-- `hd_entry_insert`, for non-null `dict` and `key`, in executions where
all three allocations succeed.  After the duplicate check it appends the
new node at the tail of an occupied bucket (counting one collision) or
makes it the head of an empty one, increments `num_entries`, and adds
`strlen(key)+1 + strlen(value)+1 + sizeof(struct hd_entry)` to
`alloced_bytes`. -/
def hd_entry_insert (dict : hd_hashdict) (key value : CStr) :
    hd_status × hd_hashdict :=
  if hd_lookup_entry dict key ≠ none then (.EINVAL, dict)
  else
    (.ok,
      { entries := Function.update dict.entries (hashIdx key)
          (dict.entries (hashIdx key) ++ [⟨key, value⟩]),
        num_entries := dict.num_entries + 1,
        collisions :=
          if dict.entries (hashIdx key) = [] then dict.collisions
          else dict.collisions + 1,
        alloced_bytes :=
          dict.alloced_bytes + ((key.length + 1 + value.length + 1 + ENTRYSIZE : Nat) : Int) })

/-- The chain walk of `hd_entry_remove`: the first node with an equal
key, together with the chain re-linked around it (`none` when the walk
reaches the end of the chain without a match). -/
def removeFirstEntry (key : CStr) : List hd_entry → Option (hd_entry × List hd_entry)
  | [] => none
  | e :: es =>
    if e.key = key then some (e, es)
    else (removeFirstEntry key es).map (fun p => (p.1, e :: p.2))

/-- `hd_entry_remove`, for non-null `dict` and `key`.  The byte-counter
decrement is `strlen(key) + strlen(value) + sizeof(struct hd_entry)`,
without the two string terminators — exactly as in the source. -/
def hd_entry_remove (dict : hd_hashdict) (key : CStr) :
    hd_status × hd_hashdict :=
  if dict.num_entries = 0 then (.EINVAL, dict)
  else
    match removeFirstEntry key (dict.entries (hashIdx key)) with
    | none => (.EINVAL, dict)
    | some (e, rest) =>
      (.ok,
        { entries := Function.update dict.entries (hashIdx key) rest,
          num_entries := dict.num_entries - 1,
          collisions := dict.collisions,
          alloced_bytes :=
            dict.alloced_bytes - ((e.key.length + e.value.length + ENTRYSIZE : Nat) : Int) })

/-- The chain effect of `hd_entry_update`: the first node with an equal
key (the node `hd_lookup_entry` returns) gets the new value; its key and
every other node are untouched. -/
def updateFirst (key value : CStr) : List hd_entry → List hd_entry
  | [] => []
  | e :: es =>
    if e.key = key then ⟨e.key, value⟩ :: es
    else e :: updateFirst key value es

/-- `hd_entry_update`.  `allocOk` is the outcome of `hd_stralloc(value)`:
on failure the function returns `-ENOMEM` before touching the entry, so
the old value stays in place. -/
def hd_entry_update (dict : hd_hashdict) (key value : CStr) (allocOk : Bool) :
    hd_status × hd_hashdict :=
  match hd_lookup_entry dict key with
  | none => (.EINVAL, dict)
  | some e =>
    if allocOk then
      (.ok,
        { entries :=
            Function.update dict.entries (hashIdx key)
              (updateFirst key value (dict.entries (hashIdx key))),
          num_entries := dict.num_entries,
          collisions := dict.collisions,
          alloced_bytes :=
            dict.alloced_bytes + ((value.length : Int) - (e.value.length : Int)) })
    else (.ENOMEM, dict)

/-- The per-chain counter effect of `hd_free_entry_list`: for every node
it subtracts `sizeof(entry->key) + sizeof(entry->value) +
sizeof(struct hd_entry)` — the sizes of the two pointer fields, not the
string lengths — and decrements `num_entries` once. -/
def freeListBytes (chain : List hd_entry) : Int :=
  (chain.length : Int) * ((PTRSIZE + PTRSIZE + ENTRYSIZE : Nat) : Int)

/-- The bucket loop of `hd_free`: each occupied bucket's chain is freed
and the slot is nulled. -/
def hd_free_loop (dict : hd_hashdict) : List (Fin HASHSIZE) → hd_hashdict
  | [] => dict
  | i :: is =>
    hd_free_loop
      (if dict.entries i = [] then dict
       else
         { entries := Function.update dict.entries i [],
           num_entries := dict.num_entries - (dict.entries i).length,
           collisions := dict.collisions,
           alloced_bytes := dict.alloced_bytes - freeListBytes (dict.entries i) }) is

/-- `hd_free` (teardown), for a non-null `dict`. -/
def hd_free (dict : hd_hashdict) : hd_hashdict :=
  hd_free_loop dict (List.finRange HASHSIZE)

/-- Number of entry nodes reachable across all bucket chains. -/
def totalEntries (dict : hd_hashdict) : Nat :=
  ∑ i : Fin HASHSIZE, (dict.entries i).length

/-- Pointer-level model of the bucket `hd_hash key` for insert's
allocation-failure paths.  `chain` is the sequence of nodes linked from
the bucket head: the address each link points to, and the node's key and
value fields (`none` for a field that never received a successful
allocation).  `freed` collects the addresses already passed to `free`;
`nextAddr` is the next fresh address `malloc` would return. -/
structure BucketState where
  chain : List (Nat × (Option CStr × Option CStr))
  freed : List Nat
  nextAddr : Nat
deriving DecidableEq

/-- `hd_entry_insert` restricted to the bucket `hd_hash key`, with the
outcome of its three allocations (`malloc` of the node, `hd_stralloc` of
the key copy, `hd_stralloc` of the value copy) made explicit.  It follows
the source's error paths line by line: on `err_keyalloc` / `err_valalloc`
the partial string copy and the node are released with `free`, but the
link that was made to point at the node — the bucket head or the old
tail's `next` — is not reset. -/
def insertOnBucket (st : BucketState) (key value : CStr)
    (nodeOk keyOk valOk : Bool) : hd_status × BucketState :=
  if (st.chain.map (fun p => p.2.1)).contains (some key) then (.EINVAL, st)
  else if nodeOk = false then
    (.ENOMEM, st)
  else if keyOk = false then
    (.ENOMEM,
      { chain := st.chain ++ [(st.nextAddr, (none, none))],
        freed := st.nextAddr :: st.freed,
        nextAddr := st.nextAddr + 1 })
  else if valOk = false then
    (.ENOMEM,
      { chain := st.chain ++ [(st.nextAddr, (some key, none))],
        freed := st.nextAddr :: st.freed,
        nextAddr := st.nextAddr + 1 })
  else
    (.ok,
      { chain := st.chain ++ [(st.nextAddr, (some key, some value))],
        freed := st.freed,
        nextAddr := st.nextAddr + 1 })

/-- One call of a client sequence: an insert or a remove. -/
inductive HDOp where
  | ins (key value : CStr)
  | rem (key : CStr)

/-- Run a sequence of calls against the dictionary, keeping only the
table (a rejected call leaves it unchanged). -/
def runOps (dict : hd_hashdict) : List HDOp → hd_hashdict
  | [] => dict
  | HDOp.ins k v :: ops => runOps (hd_entry_insert dict k v).2 ops
  | HDOp.rem k :: ops => runOps (hd_entry_remove dict k).2 ops

/-- Specification-level account of the same sequence: the list of live
keys, i.e. the keys inserted and not yet removed, a rejected duplicate
insert not counting as inserted. -/
def runLive (live : List CStr) : List HDOp → List CStr
  | [] => live
  | HDOp.ins k _ :: ops => runLive (if k ∈ live then live else k :: live) ops
  | HDOp.rem k :: ops => runLive (live.erase k) ops

/-- The hash fold exactly as the specification words it: every step adds
the byte value itself, in arithmetic wrapping modulo `2 ^ 64`. -/
def specHashLoop (h : Nat) : CStr → Nat
  | [] => h
  | b :: bs => specHashLoop ((h * 33 + b) % U64) bs

/-- The specification's hash: seed 5381, `hash * 33 + byte` per byte,
reduced modulo `HASHSIZE`. -/
def specHash (key : CStr) : Nat :=
  specHashLoop 5381 key % HASHSIZE

/-- The coupling invariant between a dictionary and a live-key list:
the entry count agrees with the number of reachable nodes, every node
sits in the bucket its key hashes to, no chain repeats a key, and the
reachable keys are exactly the live keys. -/
def Inv (dict : hd_hashdict) (live : List CStr) : Prop :=
  dict.num_entries = totalEntries dict ∧
  (∀ i : Fin HASHSIZE, ∀ e ∈ dict.entries i, hashIdx e.key = i) ∧
  (∀ i : Fin HASHSIZE, ((dict.entries i).map hd_entry.key).Nodup) ∧
  live.Nodup ∧
  (∀ k : CStr, k ∈ (dict.entries (hashIdx k)).map hd_entry.key ↔ k ∈ live) ∧
  totalEntries dict = live.length

/-! Helper lemmas about the chain walks. -/

theorem findEntry_eq_none_iff (key : CStr) (l : List hd_entry) :
    findEntry key l = none ↔ key ∉ l.map hd_entry.key := by
  induction l with
  | nil => simp [findEntry]
  | cons e es ih =>
    by_cases h : e.key = key
    · simp [findEntry, h]
    · simp [findEntry, h, ih, Ne.symm h]

theorem findEntry_append_of_none (key : CStr) (l₁ l₂ : List hd_entry)
    (h : findEntry key l₁ = none) :
    findEntry key (l₁ ++ l₂) = findEntry key l₂ := by
  induction l₁ with
  | nil => rfl
  | cons e es ih =>
    by_cases he : e.key = key
    · simp [findEntry, he] at h
    · rw [List.cons_append, findEntry, if_neg he]
      rw [findEntry, if_neg he] at h
      exact ih h

theorem findEntry_updateFirst (key value : CStr) (l : List hd_entry) (e : hd_entry)
    (h : findEntry key l = some e) :
    findEntry key (updateFirst key value l) = some ⟨e.key, value⟩ := by
  induction l with
  | nil => simp [findEntry] at h
  | cons a as ih =>
    by_cases ha : a.key = key
    · rw [findEntry, if_pos ha, Option.some.injEq] at h
      subst h
      rw [updateFirst, if_pos ha, findEntry, if_pos ha]
    · rw [findEntry, if_neg ha] at h
      rw [updateFirst, if_neg ha, findEntry, if_neg ha]
      exact ih h

theorem updateFirst_spec (key value : CStr) (l : List hd_entry) (e : hd_entry)
    (h : findEntry key l = some e) :
    ∃ pre post, l = pre ++ e :: post ∧ (∀ x ∈ pre, x.key ≠ key) ∧ e.key = key ∧
      updateFirst key value l = pre ++ ⟨e.key, value⟩ :: post := by
  induction l with
  | nil => simp [findEntry] at h
  | cons a as ih =>
    by_cases ha : a.key = key
    · rw [findEntry, if_pos ha, Option.some.injEq] at h
      subst h
      exact ⟨[], as, rfl, by simp, ha, by rw [updateFirst, if_pos ha]; rfl⟩
    · rw [findEntry, if_neg ha] at h
      obtain ⟨pre, post, hl, hpre, hek, hupd⟩ := ih h
      refine ⟨a :: pre, post, by simp [hl], ?_, hek, ?_⟩
      · intro x hx
        rcases List.mem_cons.mp hx with hx | hx
        · exact hx ▸ ha
        · exact hpre x hx
      · rw [updateFirst, if_neg ha, hupd]
        rfl

theorem removeFirstEntry_eq_none_iff (key : CStr) (l : List hd_entry) :
    removeFirstEntry key l = none ↔ key ∉ l.map hd_entry.key := by
  induction l with
  | nil => simp [removeFirstEntry]
  | cons e es ih =>
    by_cases h : e.key = key
    · simp [removeFirstEntry, h]
    · simp [removeFirstEntry, h, ih, Ne.symm h]

theorem removeFirstEntry_spec (key : CStr) (l : List hd_entry) (e : hd_entry)
    (rest : List hd_entry) (h : removeFirstEntry key l = some (e, rest)) :
    ∃ pre post, l = pre ++ e :: post ∧ rest = pre ++ post ∧ e.key = key ∧
      ∀ x ∈ pre, x.key ≠ key := by
  induction l generalizing rest with
  | nil => simp [removeFirstEntry] at h
  | cons a as ih =>
    by_cases ha : a.key = key
    · rw [removeFirstEntry, if_pos ha, Option.some.injEq, Prod.mk.injEq] at h
      obtain ⟨he, hrest⟩ := h
      subst he
      exact ⟨[], as, rfl, by simp [hrest], ha, by simp⟩
    · rw [removeFirstEntry, if_neg ha] at h
      cases hrm : removeFirstEntry key as with
      | none => rw [hrm] at h; simp at h
      | some p =>
        rw [hrm, Option.map_some'] at h
        rw [Option.some.injEq, Prod.mk.injEq] at h
        obtain ⟨he, hrest⟩ := h
        subst he
        obtain ⟨pre, post, hl, hr, hek, hpre⟩ := ih p.2 (by rw [hrm])
        refine ⟨a :: pre, post, by simp [hl], by rw [← hrest, hr]; rfl, hek, ?_⟩
        intro x hx
        rcases List.mem_cons.mp hx with hx | hx
        · exact hx ▸ ha
        · exact hpre x hx

/-! Helper lemmas about the bucket-array sum. -/

theorem sum_length_update (f : Fin HASHSIZE → List hd_entry) (i : Fin HASHSIZE)
    (c : List hd_entry) :
    (∑ j : Fin HASHSIZE, (Function.update f i c j).length) + (f i).length
      = (∑ j : Fin HASHSIZE, (f j).length) + c.length := by
  classical
  have hcomp : ∀ j : Fin HASHSIZE,
      (Function.update f i c j).length
        = Function.update (fun j => (f j).length) i c.length j := by
    intro j
    by_cases hj : j = i
    · subst hj; simp
    · simp [Function.update_noteq hj]
  rw [Finset.sum_congr rfl (fun j _ => hcomp j),
    Finset.sum_update_of_mem (Finset.mem_univ i),
    ← Finset.add_sum_erase Finset.univ (fun j => (f j).length) (Finset.mem_univ i),
    Finset.erase_eq]
  ring

theorem entries_eq_nil_of_total_zero (dict : hd_hashdict)
    (h : totalEntries dict = 0) (i : Fin HASHSIZE) : dict.entries i = [] := by
  have hz := (Finset.sum_eq_zero_iff.mp h) i (Finset.mem_univ i)
  exact List.length_eq_zero.mp hz

theorem totalEntries_update (d d' : hd_hashdict) (i : Fin HASHSIZE)
    (c : List hd_entry) (hE : d'.entries = Function.update d.entries i c) :
    totalEntries d' + (d.entries i).length = totalEntries d + c.length := by
  unfold totalEntries
  rw [hE]
  exact sum_length_update d.entries i c

theorem sum_update_comp {M : Type} [AddCommMonoid M] (g : List hd_entry → M)
    (f : Fin HASHSIZE → List hd_entry) (i : Fin HASHSIZE) (c : List hd_entry) :
    (∑ j : Fin HASHSIZE, g (Function.update f i c j)) + g (f i)
      = (∑ j : Fin HASHSIZE, g (f j)) + g c := by
  classical
  have hcomp : ∀ j : Fin HASHSIZE,
      g (Function.update f i c j) = Function.update (fun j => g (f j)) i (g c) j := by
    intro j
    by_cases hj : j = i
    · subst hj; simp
    · simp [Function.update_noteq hj]
  rw [Finset.sum_congr rfl (fun j _ => hcomp j),
    Finset.sum_update_of_mem (Finset.mem_univ i),
    ← Finset.add_sum_erase Finset.univ (fun j => g (f j)) (Finset.mem_univ i),
    Finset.erase_eq]
  abel

theorem hd_hashdict_ext (d1 d2 : hd_hashdict) (hE : d1.entries = d2.entries)
    (hN : d1.num_entries = d2.num_entries) (hC : d1.collisions = d2.collisions)
    (hB : d1.alloced_bytes = d2.alloced_bytes) : d1 = d2 := by
  cases d1
  cases d2
  simp_all

/-! Characterizations of the three mutators on their main paths. -/

theorem lookup_entry_of_findEntry_none (dict : hd_hashdict) (key : CStr)
    (habs : findEntry key (dict.entries (hashIdx key)) = none) :
    hd_lookup_entry dict key = none := by
  unfold hd_lookup_entry
  by_cases h0 : dict.num_entries = 0
  · rw [if_pos h0]
  · rw [if_neg h0]
    exact habs

theorem insert_absent (dict : hd_hashdict) (key value : CStr)
    (habs : hd_lookup_entry dict key = none) :
    hd_entry_insert dict key value =
      (.ok,
        { entries := Function.update dict.entries (hashIdx key)
            (dict.entries (hashIdx key) ++ [⟨key, value⟩]),
          num_entries := dict.num_entries + 1,
          collisions :=
            if dict.entries (hashIdx key) = [] then dict.collisions
            else dict.collisions + 1,
          alloced_bytes :=
            dict.alloced_bytes
              + ((key.length + 1 + value.length + 1 + ENTRYSIZE : Nat) : Int) }) := by
  unfold hd_entry_insert
  rw [if_neg (not_not_intro habs)]

theorem insert_present (dict : hd_hashdict) (key value : CStr)
    (hpres : hd_lookup_entry dict key ≠ none) :
    hd_entry_insert dict key value = (.EINVAL, dict) := by
  unfold hd_entry_insert
  rw [if_pos hpres]

theorem remove_found (dict : hd_hashdict) (key : CStr) (e : hd_entry)
    (rest : List hd_entry) (h0 : ¬dict.num_entries = 0)
    (hfind : removeFirstEntry key (dict.entries (hashIdx key)) = some (e, rest)) :
    hd_entry_remove dict key =
      (.ok,
        { entries := Function.update dict.entries (hashIdx key) rest,
          num_entries := dict.num_entries - 1,
          collisions := dict.collisions,
          alloced_bytes :=
            dict.alloced_bytes
              - ((e.key.length + e.value.length + ENTRYSIZE : Nat) : Int) }) := by
  unfold hd_entry_remove
  rw [if_neg h0, hfind]

theorem update_found (dict : hd_hashdict) (key value : CStr) (e : hd_entry)
    (hfound : hd_lookup_entry dict key = some e) :
    hd_entry_update dict key value true =
      (.ok,
        { entries := Function.update dict.entries (hashIdx key)
            (updateFirst key value (dict.entries (hashIdx key))),
          num_entries := dict.num_entries,
          collisions := dict.collisions,
          alloced_bytes :=
            dict.alloced_bytes + ((value.length : Int) - (e.value.length : Int)) }) := by
  unfold hd_entry_update
  rw [hfound]
  rfl

theorem lookup_entry_some (dict : hd_hashdict) (key : CStr) (e : hd_entry)
    (hfound : hd_lookup_entry dict key = some e) :
    ¬dict.num_entries = 0 ∧ findEntry key (dict.entries (hashIdx key)) = some e := by
  unfold hd_lookup_entry at hfound
  by_cases h0 : dict.num_entries = 0
  · rw [if_pos h0] at hfound
    exact Option.noConfusion hfound
  · rw [if_neg h0] at hfound
    exact ⟨h0, hfound⟩

/-! The hash loop agrees with the specification's formula on 7-bit keys. -/

theorem hd_hash_step_ascii (h b : Nat) (hb : b < 128) :
    hd_hash_step h b = (h * 33 + b) % U64 := by
  unfold hd_hash_step signExtChar
  rw [if_pos hb]
  have hcast : ((h : Int) * 33 + (b : Int)) = ((h * 33 + b : Nat) : Int) := by
    push_cast
    ring
  rw [hcast, ← Int.natCast_mod, Int.toNat_natCast]

theorem hd_hash_loop_ascii (key : CStr) : ∀ h : Nat, (∀ b ∈ key, b < 128) →
    hd_hash_loop h key = specHashLoop h key := by
  induction key with
  | nil =>
    intro h _
    rfl
  | cons b bs ih =>
    intro h hall
    have hb : b < 128 := hall b (List.mem_cons_self b bs)
    unfold hd_hash_loop specHashLoop
    rw [hd_hash_step_ascii h b hb]
    exact ih _ (fun x hx => hall x (List.mem_cons_of_mem b hx))

/-! Closed form of the teardown loop. -/

theorem hd_free_loop_spec (is : List (Fin HASHSIZE)) (dict : hd_hashdict)
    (hnd : is.Nodup) :
    hd_free_loop dict is =
      { entries := fun i => if i ∈ is then [] else dict.entries i,
        num_entries :=
          dict.num_entries - (is.map (fun i => (dict.entries i).length)).sum,
        collisions := dict.collisions,
        alloced_bytes :=
          dict.alloced_bytes - (is.map (fun i => freeListBytes (dict.entries i))).sum } := by
  induction is generalizing dict with
  | nil =>
    refine hd_hashdict_ext _ _ ?_ ?_ rfl ?_
    · funext j
      simp [hd_free_loop]
    · simp [hd_free_loop]
    · simp [hd_free_loop]
  | cons i is ih =>
    rw [List.nodup_cons] at hnd
    obtain ⟨hni, hnd⟩ := hnd
    simp only [hd_free_loop]
    by_cases hie : dict.entries i = []
    · rw [if_pos hie, ih dict hnd]
      refine hd_hashdict_ext _ _ ?_ ?_ rfl ?_
      · funext j
        by_cases hj : j ∈ is
        · simp [hj]
        · by_cases hji : j = i
          · subst hji
            simp [hj, hie]
          · simp [hj, hji]
      · simp [hie]
      · simp [hie, freeListBytes]
    · rw [if_neg hie,
        ih { entries := Function.update dict.entries i [],
             num_entries := dict.num_entries - (dict.entries i).length,
             collisions := dict.collisions,
             alloced_bytes := dict.alloced_bytes - freeListBytes (dict.entries i) } hnd]
      have hagree : ∀ j ∈ is,
          Function.update dict.entries i ([] : List hd_entry) j = dict.entries j := by
        intro j hj
        have hji : j ≠ i := fun hc => hni (hc ▸ hj)
        exact Function.update_noteq hji _ _
      refine hd_hashdict_ext _ _ ?_ ?_ rfl ?_
      · funext j
        by_cases hj : j ∈ is
        · simp [hj]
        · by_cases hji : j = i
          · subst hji
            simp [hj]
          · simp [hj, hji, Function.update_noteq hji]
      · have hsum : (is.map (fun j =>
            ((Function.update dict.entries i ([] : List hd_entry)) j).length)).sum
            = (is.map (fun j => (dict.entries j).length)).sum := by
          refine congrArg List.sum (List.map_congr_left ?_)
          intro j hj
          rw [hagree j hj]
        simp only [List.map_cons, List.sum_cons, hsum]
        omega
      · have hsum : (is.map (fun j =>
            freeListBytes ((Function.update dict.entries i ([] : List hd_entry)) j))).sum
            = (is.map (fun j => freeListBytes (dict.entries j))).sum := by
          refine congrArg List.sum (List.map_congr_left ?_)
          intro j hj
          rw [hagree j hj]
        simp only [List.map_cons, List.sum_cons, hsum]
        ring

theorem hd_free_spec (dict : hd_hashdict) :
    hd_free dict =
      { entries := fun _ => [],
        num_entries := dict.num_entries - totalEntries dict,
        collisions := dict.collisions,
        alloced_bytes :=
          dict.alloced_bytes - ∑ i : Fin HASHSIZE, freeListBytes (dict.entries i) } := by
  rw [hd_free, hd_free_loop_spec (List.finRange HASHSIZE) dict (List.nodup_finRange HASHSIZE)]
  refine hd_hashdict_ext _ _ ?_ ?_ rfl ?_
  · funext j
    simp [List.mem_finRange]
  · rw [totalEntries, Fin.sum_univ_def]
  · rw [Fin.sum_univ_def]

/-! Preservation of the coupling invariant by insert and remove. -/

theorem Inv_create : Inv hd_create [] := by
  refine ⟨?_, ?_, ?_, ?_, ?_, ?_⟩
  · simp [hd_create, totalEntries]
  · intro i e he
    simp [hd_create] at he
  · intro i
    simp [hd_create]
  · exact List.nodup_nil
  · intro k
    simp [hd_create]
  · simp [hd_create, totalEntries]

theorem Inv_insert_aux (dict d' : hd_hashdict) (live : List CStr) (k v : CStr)
    (h : Inv dict live)
    (hkb : k ∉ (dict.entries (hashIdx k)).map hd_entry.key)
    (hE : d'.entries = Function.update dict.entries (hashIdx k)
            (dict.entries (hashIdx k) ++ [⟨k, v⟩]))
    (hN : d'.num_entries = dict.num_entries + 1) :
    Inv d' (k :: live) := by
  obtain ⟨hn, hhash, hnodup, hlnodup, hmem, hlen⟩ := h
  have hkl : k ∉ live := fun hc => hkb ((hmem k).mpr hc)
  have htot : totalEntries d' = totalEntries dict + 1 := by
    have hu := totalEntries_update dict d' (hashIdx k) _ hE
    simp only [List.length_append, List.length_singleton] at hu
    omega
  refine ⟨?_, ?_, ?_, ?_, ?_, ?_⟩
  · omega
  · intro i e he
    rw [hE] at he
    by_cases hi : i = hashIdx k
    · subst hi
      rw [Function.update_same] at he
      rcases List.mem_append.mp he with he | he
      · exact hhash _ e he
      · rw [List.mem_singleton] at he
        subst he
        rfl
    · rw [Function.update_noteq hi] at he
      exact hhash i e he
  · intro i
    rw [hE]
    by_cases hi : i = hashIdx k
    · subst hi
      rw [Function.update_same, List.map_append]
      have hdis : ((dict.entries (hashIdx k)).map hd_entry.key).Disjoint
          ([(⟨k, v⟩ : hd_entry)].map hd_entry.key) := by
        intro a ha hb
        rw [List.map_singleton, List.mem_singleton] at hb
        subst hb
        exact hkb ha
      exact List.Nodup.append (hnodup _) (by simp) hdis
    · rw [Function.update_noteq hi]
      exact hnodup i
  · exact List.nodup_cons.mpr ⟨hkl, hlnodup⟩
  · intro k'
    rw [hE]
    by_cases hb : hashIdx k' = hashIdx k
    · rw [hb, Function.update_same, List.map_append, List.mem_append]
      constructor
      · rintro (hc | hc)
        · have hc' : k' ∈ (dict.entries (hashIdx k')).map hd_entry.key := by
            rw [hb]
            exact hc
          exact List.mem_cons_of_mem _ ((hmem k').mp hc')
        · have hc' : k' = k := by simpa using hc
          subst hc'
          exact List.mem_cons_self _ _
      · intro hc
        rcases List.mem_cons.mp hc with hc | hc
        · subst hc
          right
          simp
        · left
          have hc' := (hmem k').mpr hc
          rw [hb] at hc'
          exact hc'
    · rw [Function.update_noteq hb, hmem k', List.mem_cons]
      have hkk : k' ≠ k := fun hc => hb (by rw [hc])
      constructor
      · exact Or.inr
      · rintro (hc | hc)
        · exact absurd hc hkk
        · exact hc
  · rw [htot, hlen, List.length_cons]

theorem Inv_insert (dict : hd_hashdict) (live : List CStr) (k v : CStr)
    (h : Inv dict live) :
    Inv (hd_entry_insert dict k v).2 (if k ∈ live then live else k :: live) := by
  obtain ⟨hn, hhash, hnodup, hlnodup, hmem, hlen⟩ := h
  by_cases hdup : hd_lookup_entry dict k = none
  · have hkb : k ∉ (dict.entries (hashIdx k)).map hd_entry.key := by
      unfold hd_lookup_entry at hdup
      by_cases h0 : dict.num_entries = 0
      · have htz : totalEntries dict = 0 := by omega
        rw [entries_eq_nil_of_total_zero dict htz]
        simp
      · rw [if_neg h0] at hdup
        exact (findEntry_eq_none_iff k _).mp hdup
    have hkl : k ∉ live := fun hc => hkb ((hmem k).mpr hc)
    rw [if_neg hkl]
    refine Inv_insert_aux dict _ live k v
      ⟨hn, hhash, hnodup, hlnodup, hmem, hlen⟩ hkb ?_ ?_
    · rw [insert_absent dict k v hdup]
    · rw [insert_absent dict k v hdup]
  · have hk : k ∈ live := by
      refine (hmem k).mp ?_
      unfold hd_lookup_entry at hdup
      by_cases h0 : dict.num_entries = 0
      · rw [if_pos h0] at hdup
        exact absurd rfl hdup
      · rw [if_neg h0] at hdup
        by_contra hc
        exact hdup ((findEntry_eq_none_iff k _).mpr hc)
    rw [insert_present dict k v hdup, if_pos hk]
    exact ⟨hn, hhash, hnodup, hlnodup, hmem, hlen⟩

theorem Inv_remove_aux (dict d' : hd_hashdict) (live : List CStr) (k : CStr)
    (e : hd_entry) (rest : List hd_entry) (h : Inv dict live)
    (hfind : removeFirstEntry k (dict.entries (hashIdx k)) = some (e, rest))
    (hE : d'.entries = Function.update dict.entries (hashIdx k) rest)
    (hN : d'.num_entries = dict.num_entries - 1) :
    Inv d' (live.erase k) := by
  obtain ⟨hn, hhash, hnodup, hlnodup, hmem, hlen⟩ := h
  obtain ⟨pre, post, hchain, hrest, hek, hpre⟩ :=
    removeFirstEntry_spec k _ e rest hfind
  have hkeys : (dict.entries (hashIdx k)).map hd_entry.key
      = pre.map hd_entry.key ++ k :: post.map hd_entry.key := by
    rw [hchain, List.map_append, List.map_cons, hek]
  have hknodup := hnodup (hashIdx k)
  rw [hkeys, List.nodup_middle, List.nodup_cons] at hknodup
  have hknotin := hknodup.1
  have hABnodup := hknodup.2
  have hkl : k ∈ live := by
    refine (hmem k).mp ?_
    rw [hkeys]
    simp
  have hlc : (dict.entries (hashIdx k)).length = rest.length + 1 := by
    rw [hchain, hrest]
    simp only [List.length_append, List.length_cons]
    omega
  have htot : totalEntries d' + 1 = totalEntries dict := by
    have hu := totalEntries_update dict d' (hashIdx k) rest hE
    omega
  refine ⟨?_, ?_, ?_, ?_, ?_, ?_⟩
  · omega
  · intro i x hx
    rw [hE] at hx
    by_cases hi : i = hashIdx k
    · subst hi
      rw [Function.update_same, hrest] at hx
      have hxin : x ∈ dict.entries (hashIdx k) := by
        rw [hchain]
        rcases List.mem_append.mp hx with hx | hx
        · exact List.mem_append.mpr (Or.inl hx)
        · exact List.mem_append.mpr (Or.inr (List.mem_cons_of_mem _ hx))
      exact hhash _ x hxin
    · rw [Function.update_noteq hi] at hx
      exact hhash i x hx
  · intro i
    rw [hE]
    by_cases hi : i = hashIdx k
    · subst hi
      rw [Function.update_same, hrest, List.map_append]
      exact hABnodup
    · rw [Function.update_noteq hi]
      exact hnodup i
  · exact hlnodup.erase k
  · intro k'
    rw [hE]
    by_cases hb : hashIdx k' = hashIdx k
    · rw [hb, Function.update_same, hrest, List.map_append]
      have hmem' : k' ∈ (dict.entries (hashIdx k')).map hd_entry.key
          ↔ k' ∈ pre.map hd_entry.key ++ k :: post.map hd_entry.key := by
        rw [hb, hkeys]
      rw [List.Nodup.mem_erase_iff hlnodup, ← hmem k', hmem']
      constructor
      · intro hc
        have hne : k' ≠ k := by
          intro hkk
          subst hkk
          exact hknotin hc
        refine ⟨hne, ?_⟩
        rcases List.mem_append.mp hc with hc | hc
        · exact List.mem_append.mpr (Or.inl hc)
        · exact List.mem_append.mpr (Or.inr (List.mem_cons_of_mem _ hc))
      · rintro ⟨hne, hc⟩
        rcases List.mem_append.mp hc with hc | hc
        · exact List.mem_append.mpr (Or.inl hc)
        · rcases List.mem_cons.mp hc with hc | hc
          · exact absurd hc hne
          · exact List.mem_append.mpr (Or.inr hc)
    · rw [Function.update_noteq hb, hmem k', List.Nodup.mem_erase_iff hlnodup]
      have hkk : k' ≠ k := fun hc => hb (by rw [hc])
      exact ⟨fun hc => ⟨hkk, hc⟩, fun hc => hc.2⟩
  · rw [List.length_erase_of_mem hkl]
    omega

theorem Inv_remove (dict : hd_hashdict) (live : List CStr) (k : CStr)
    (h : Inv dict live) :
    Inv (hd_entry_remove dict k).2 (live.erase k) := by
  obtain ⟨hn, hhash, hnodup, hlnodup, hmem, hlen⟩ := h
  by_cases h0 : dict.num_entries = 0
  · have hl0 : live.length = 0 := by omega
    have hlive : live = [] := List.eq_nil_of_length_eq_zero hl0
    subst hlive
    unfold hd_entry_remove
    rw [if_pos h0]
    exact ⟨hn, hhash, hnodup, hlnodup, hmem, hlen⟩
  · cases hrm : removeFirstEntry k (dict.entries (hashIdx k)) with
    | none =>
      have hkb : k ∉ (dict.entries (hashIdx k)).map hd_entry.key :=
        (removeFirstEntry_eq_none_iff k _).mp hrm
      have hkl : k ∉ live := fun hc => hkb ((hmem k).mpr hc)
      rw [List.erase_of_not_mem hkl]
      unfold hd_entry_remove
      rw [if_neg h0, hrm]
      exact ⟨hn, hhash, hnodup, hlnodup, hmem, hlen⟩
    | some p =>
      refine Inv_remove_aux dict _ live k p.1 p.2
        ⟨hn, hhash, hnodup, hlnodup, hmem, hlen⟩ (by rw [hrm]) ?_ ?_
      · rw [remove_found dict k p.1 p.2 h0 (by rw [hrm])]
      · rw [remove_found dict k p.1 p.2 h0 (by rw [hrm])]

theorem Inv_runOps (dict : hd_hashdict) (live : List CStr) (h : Inv dict live)
    (ops : List HDOp) : Inv (runOps dict ops) (runLive live ops) := by
  induction ops generalizing dict live with
  | nil => exact h
  | cons op ops ih =>
    cases op with
    | ins k v => exact ih _ _ (Inv_insert dict live k v h)
    | rem k => exact ih _ _ (Inv_remove dict live k h)

theorem hd_free_num (dict : hd_hashdict) :
    (hd_free dict).num_entries = dict.num_entries - totalEntries dict := by
  rw [hd_free_spec]

theorem hd_free_alloced (dict : hd_hashdict) :
    (hd_free dict).alloced_bytes
      = dict.alloced_bytes - ∑ i : Fin HASHSIZE, freeListBytes (dict.entries i) := by
  rw [hd_free_spec]

theorem free_insert_empty_bucket (dict : hd_hashdict) (key value : CStr)
    (habs : hd_lookup_entry dict key = none)
    (hemp : dict.entries (hashIdx key) = []) :
    (hd_free (hd_entry_insert dict key value).2).num_entries
      = dict.num_entries - totalEntries dict ∧
    (hd_free (hd_entry_insert dict key value).2).alloced_bytes
      = dict.alloced_bytes
          + ((key.length + 1 + value.length + 1 + ENTRYSIZE : Nat) : Int)
          - ((∑ i : Fin HASHSIZE, freeListBytes (dict.entries i))
              + ((PTRSIZE + PTRSIZE + ENTRYSIZE : Nat) : Int)) := by
  have hE : (hd_entry_insert dict key value).2.entries
      = Function.update dict.entries (hashIdx key)
          (dict.entries (hashIdx key) ++ [⟨key, value⟩]) := by
    rw [insert_absent dict key value habs]
  have hN : (hd_entry_insert dict key value).2.num_entries
      = dict.num_entries + 1 := by
    rw [insert_absent dict key value habs]
  have hBy : (hd_entry_insert dict key value).2.alloced_bytes
      = dict.alloced_bytes
          + ((key.length + 1 + value.length + 1 + ENTRYSIZE : Nat) : Int) := by
    rw [insert_absent dict key value habs]
  have htotD : totalEntries (hd_entry_insert dict key value).2
      = totalEntries dict + 1 := by
    have hu := totalEntries_update dict (hd_entry_insert dict key value).2
      (hashIdx key) (dict.entries (hashIdx key) ++ [⟨key, value⟩]) hE
    calc totalEntries (hd_entry_insert dict key value).2
        = totalEntries (hd_entry_insert dict key value).2
            + (dict.entries (hashIdx key)).length := by
          rw [hemp, List.length_nil, Nat.add_zero]
      _ = totalEntries dict
            + (dict.entries (hashIdx key) ++ [(⟨key, value⟩ : hd_entry)]).length := hu
      _ = totalEntries dict + 1 := by
          rw [hemp, List.nil_append, List.length_singleton]
  have hnil : freeListBytes ([] : List hd_entry) = 0 := by
    simp [freeListBytes]
  have hone : freeListBytes [(⟨key, value⟩ : hd_entry)]
      = ((PTRSIZE + PTRSIZE + ENTRYSIZE : Nat) : Int) := by
    simp [freeListBytes]
  have hsumD : (∑ i : Fin HASHSIZE,
      freeListBytes ((hd_entry_insert dict key value).2.entries i))
      = (∑ i : Fin HASHSIZE, freeListBytes (dict.entries i))
        + ((PTRSIZE + PTRSIZE + ENTRYSIZE : Nat) : Int) := by
    have hu := sum_update_comp freeListBytes dict.entries (hashIdx key)
      (dict.entries (hashIdx key) ++ [⟨key, value⟩])
    rw [hemp] at hu
    simp only [List.nil_append] at hu
    rw [hnil, hone, add_zero] at hu
    rw [hE, hemp]
    simp only [List.nil_append]
    exact hu
  constructor
  · rw [hd_free_num, hN, htotD]
    omega
  · rw [hd_free_alloced, hBy, hsumD]

/-! The claims. -/

/-- C8 (amended): for every key the hash is a pure function returning a
bucket index in `[0, HASHSIZE)` with `HASHSIZE = 1024`, computed as the
djb2 fold from seed 5381 with unsigned 64-bit wraparound and a final
reduction modulo `HASHSIZE`, and it hashes the empty string without
fault; the per-byte step adds the byte as read through the signed `char`
type, which coincides with the claimed `hash = hash*33 + byte` exactly
when every byte of the key is below `0x80` (7-bit ASCII). -/
theorem claim8_hash_djb2 (key : CStr) (hkey : ∀ b ∈ key, 0 < b ∧ b < 128) :
    hd_hash key < HASHSIZE ∧
    hd_hash key = specHash key ∧
    hd_hash [] = 5381 % HASHSIZE := by
  refine ⟨hd_hash_lt key, ?_, rfl⟩
  unfold hd_hash specHash
  rw [hd_hash_loop_ascii key 5381 (fun b hb => (hkey b hb).2)]

/-- Witness for C8 on the two-byte ASCII key `"hi"`. -/
theorem claim8_hash_djb2_w :
    (∀ b ∈ ([104, 105] : CStr), 0 < b ∧ b < 128) ∧
    (hd_hash [104, 105] < HASHSIZE ∧
     hd_hash [104, 105] = specHash [104, 105] ∧
     hd_hash [] = 5381 % HASHSIZE) :=
  ⟨by decide, claim8_hash_djb2 [104, 105] (by decide)⟩

/-- C8 counterexample: on the one-byte key `0x80` the source hash reads
the byte through signed `char`, so the step adds `-128` rather than
`128`: the code yields bucket 293 while the claimed formula
`hash = hash*33 + byte` yields bucket 549. -/
theorem claim8_hash_counterexample :
    validCStr [128] ∧ hd_hash [128] = 293 ∧ specHash [128] = 549 ∧
    hd_hash [128] ≠ specHash [128] := by
  decide

/-- C1: inserting a valid key that is not in its bucket's chain, with a
valid value, succeeds and appends exactly one new entry holding the key
and the value at the tail of bucket `hd_hash key` (the head when the
bucket was empty), leaves every other bucket unchanged, increments
`num_entries` by one, counts one collision exactly when the bucket was
occupied, and adds `len(key)+1 + len(value)+1 + sizeof(struct hd_entry)`
to the diagnostic byte counter. -/
theorem claim1_insert_success (dict : hd_hashdict) (key value : CStr)
    (hkey : validCStr key) (hval : validCStr value)
    (habs : findEntry key (dict.entries (hashIdx key)) = none) :
    (hd_entry_insert dict key value).1 = .ok ∧
    (hd_entry_insert dict key value).2.entries (hashIdx key)
      = dict.entries (hashIdx key) ++ [⟨key, value⟩] ∧
    (∀ j : Fin HASHSIZE, j ≠ hashIdx key →
      (hd_entry_insert dict key value).2.entries j = dict.entries j) ∧
    (hd_entry_insert dict key value).2.num_entries = dict.num_entries + 1 ∧
    (hd_entry_insert dict key value).2.collisions
      = (if dict.entries (hashIdx key) = [] then dict.collisions
         else dict.collisions + 1) ∧
    (hd_entry_insert dict key value).2.alloced_bytes
      = dict.alloced_bytes
          + ((key.length + 1 + value.length + 1 + ENTRYSIZE : Nat) : Int) := by
  have hlk := lookup_entry_of_findEntry_none dict key habs
  rw [insert_absent dict key value hlk]
  refine ⟨rfl, ?_, ?_, rfl, rfl, rfl⟩
  · show Function.update dict.entries (hashIdx key)
        (dict.entries (hashIdx key) ++ [⟨key, value⟩]) (hashIdx key)
      = dict.entries (hashIdx key) ++ [⟨key, value⟩]
    exact Function.update_same _ _ _
  · intro j hj
    show Function.update dict.entries (hashIdx key)
        (dict.entries (hashIdx key) ++ [⟨key, value⟩]) j = dict.entries j
    exact Function.update_noteq hj _ _

/-- Witness for C1: inserting `("a", "b")` into the empty dictionary. -/
theorem claim1_insert_success_w :
    (hd_entry_insert hd_create [97] [98]).1 = .ok ∧
    (hd_entry_insert hd_create [97] [98]).2.entries (hashIdx [97])
      = hd_create.entries (hashIdx [97]) ++ [⟨[97], [98]⟩] ∧
    (∀ j : Fin HASHSIZE, j ≠ hashIdx [97] →
      (hd_entry_insert hd_create [97] [98]).2.entries j = hd_create.entries j) ∧
    (hd_entry_insert hd_create [97] [98]).2.num_entries
      = hd_create.num_entries + 1 ∧
    (hd_entry_insert hd_create [97] [98]).2.collisions
      = (if hd_create.entries (hashIdx [97]) = [] then hd_create.collisions
         else hd_create.collisions + 1) ∧
    (hd_entry_insert hd_create [97] [98]).2.alloced_bytes
      = hd_create.alloced_bytes
          + ((([97] : CStr).length + 1 + ([98] : CStr).length + 1 + ENTRYSIZE : Nat) : Int) :=
  claim1_insert_success hd_create [97] [98] (by decide) (by decide) (by decide)

/-- C2: a second insert of a key already stored returns `-EINVAL`, and the
table — in particular its entry count and the value stored under that
key — is exactly what it was before the rejected attempt. -/
theorem claim2_insert_duplicate (dict : hd_hashdict) (key v0 value : CStr)
    (hpres : hd_lookup dict key = some v0) :
    (hd_entry_insert dict key value).1 = .EINVAL ∧
    (hd_entry_insert dict key value).2 = dict ∧
    (hd_entry_insert dict key value).2.num_entries = dict.num_entries ∧
    hd_lookup (hd_entry_insert dict key value).2 key = some v0 := by
  have hne : hd_lookup_entry dict key ≠ none := by
    intro hc
    unfold hd_lookup at hpres
    rw [hc] at hpres
    exact Option.noConfusion hpres
  rw [insert_present dict key value hne]
  exact ⟨rfl, rfl, rfl, hpres⟩

/-- Witness for C2: re-inserting key `"a"` after `("a", "b")`. -/
theorem claim2_insert_duplicate_w :
    (hd_entry_insert (hd_entry_insert hd_create [97] [98]).2 [97] [99]).1 = .EINVAL ∧
    (hd_entry_insert (hd_entry_insert hd_create [97] [98]).2 [97] [99]).2
      = (hd_entry_insert hd_create [97] [98]).2 ∧
    (hd_entry_insert (hd_entry_insert hd_create [97] [98]).2 [97] [99]).2.num_entries
      = (hd_entry_insert hd_create [97] [98]).2.num_entries ∧
    hd_lookup (hd_entry_insert (hd_entry_insert hd_create [97] [98]).2 [97] [99]).2 [97]
      = some [98] :=
  claim2_insert_duplicate (hd_entry_insert hd_create [97] [98]).2 [97] [98] [99]
    (by decide)

/-- C10: the empty string is an accepted key: when no entry with key `""`
is in its bucket's chain, inserting `""` with a value succeeds (it is not
rejected as `-EINVAL`) and a subsequent lookup of `""` returns that
value. -/
theorem claim10_empty_key (dict : hd_hashdict) (value : CStr)
    (habs : findEntry [] (dict.entries (hashIdx [])) = none) :
    (hd_entry_insert dict [] value).1 = .ok ∧
    hd_lookup (hd_entry_insert dict [] value).2 [] = some value := by
  have hlk := lookup_entry_of_findEntry_none dict [] habs
  rw [insert_absent dict [] value hlk]
  refine ⟨rfl, ?_⟩
  show Option.map hd_entry.value
      (if dict.num_entries + 1 = 0 then none
       else findEntry [] (Function.update dict.entries (hashIdx [])
         (dict.entries (hashIdx []) ++ [⟨[], value⟩]) (hashIdx []))) = some value
  rw [if_neg (Nat.succ_ne_zero _), Function.update_same,
    findEntry_append_of_none [] _ _ habs]
  rfl

/-- Witness for C10: inserting `("", "1")` into the empty dictionary. -/
theorem claim10_empty_key_w :
    (hd_entry_insert hd_create [] [49]).1 = .ok ∧
    hd_lookup (hd_entry_insert hd_create [] [49]).2 [] = some [49] :=
  claim10_empty_key hd_create [49] (by decide)

/-- C4: update of a present key copies the new value before releasing the
old one — when that allocation fails the call returns `-ENOMEM` and the
table, in particular the stored value, is intact; after a successful
update a lookup of the key returns the new value; update of a missing key
returns `-EINVAL` and leaves the table unchanged whatever the allocator
would have done. -/
theorem claim4_update_paths (dict : hd_hashdict) (key value : CStr) :
    (hd_lookup_entry dict key ≠ none →
      (hd_entry_update dict key value false).1 = .ENOMEM ∧
      (hd_entry_update dict key value false).2 = dict ∧
      hd_lookup (hd_entry_update dict key value false).2 key = hd_lookup dict key) ∧
    (hd_lookup_entry dict key ≠ none →
      (hd_entry_update dict key value true).1 = .ok ∧
      hd_lookup (hd_entry_update dict key value true).2 key = some value) ∧
    (hd_lookup_entry dict key = none →
      ∀ ok : Bool, hd_entry_update dict key value ok = (.EINVAL, dict)) := by
  refine ⟨?_, ?_, ?_⟩
  · intro hne
    cases hfound : hd_lookup_entry dict key with
    | none => exact absurd hfound hne
    | some e =>
      unfold hd_entry_update
      rw [hfound]
      exact ⟨rfl, rfl, rfl⟩
  · intro hne
    cases hfound : hd_lookup_entry dict key with
    | none => exact absurd hfound hne
    | some e =>
      obtain ⟨h0, hfe⟩ := lookup_entry_some dict key e hfound
      rw [update_found dict key value e hfound]
      refine ⟨rfl, ?_⟩
      show Option.map hd_entry.value
          (if dict.num_entries = 0 then none
           else findEntry key (Function.update dict.entries (hashIdx key)
             (updateFirst key value (dict.entries (hashIdx key))) (hashIdx key)))
        = some value
      rw [if_neg h0, Function.update_same,
        findEntry_updateFirst key value _ e hfe]
      rfl
  · intro hnone ok
    unfold hd_entry_update
    rw [hnone]

/-- Witness for C4: updating present key `"a"` (allocation failing and
succeeding) and missing key `"d"` after inserting `("a", "b")`. -/
theorem claim4_update_paths_w :
    ((hd_entry_update (hd_entry_insert hd_create [97] [98]).2 [97] [99] false).1
        = .ENOMEM ∧
      (hd_entry_update (hd_entry_insert hd_create [97] [98]).2 [97] [99] false).2
        = (hd_entry_insert hd_create [97] [98]).2 ∧
      hd_lookup
          (hd_entry_update (hd_entry_insert hd_create [97] [98]).2 [97] [99] false).2
          [97]
        = hd_lookup (hd_entry_insert hd_create [97] [98]).2 [97]) ∧
    ((hd_entry_update (hd_entry_insert hd_create [97] [98]).2 [97] [99] true).1
        = .ok ∧
      hd_lookup
          (hd_entry_update (hd_entry_insert hd_create [97] [98]).2 [97] [99] true).2
          [97]
        = some [99]) ∧
    (∀ ok : Bool,
      hd_entry_update (hd_entry_insert hd_create [97] [98]).2 [100] [99] ok
        = (.EINVAL, (hd_entry_insert hd_create [97] [98]).2)) :=
  ⟨(claim4_update_paths (hd_entry_insert hd_create [97] [98]).2 [97] [99]).1
      (by decide),
   (claim4_update_paths (hd_entry_insert hd_create [97] [98]).2 [97] [99]).2.1
      (by decide),
   (claim4_update_paths (hd_entry_insert hd_create [97] [98]).2 [100] [99]).2.2
      (by decide)⟩

/-- C9: a successful update changes only the value of the entry holding
the key: `num_entries`, the collision counter, every other bucket, the
key's bucket's chain order, the entries before and after the matched
node, and the matched node's key are all unchanged — only that node's
value is replaced. -/
theorem claim9_update_frame (dict : hd_hashdict) (key value : CStr) (e : hd_entry)
    (hfound : hd_lookup_entry dict key = some e) :
    (hd_entry_update dict key value true).1 = .ok ∧
    (hd_entry_update dict key value true).2.num_entries = dict.num_entries ∧
    (hd_entry_update dict key value true).2.collisions = dict.collisions ∧
    (∀ j : Fin HASHSIZE, j ≠ hashIdx key →
      (hd_entry_update dict key value true).2.entries j = dict.entries j) ∧
    (∃ pre post, dict.entries (hashIdx key) = pre ++ e :: post ∧
      (∀ x ∈ pre, x.key ≠ key) ∧ e.key = key ∧
      (hd_entry_update dict key value true).2.entries (hashIdx key)
        = pre ++ ⟨e.key, value⟩ :: post) := by
  obtain ⟨h0, hfe⟩ := lookup_entry_some dict key e hfound
  obtain ⟨pre, post, hchain, hpre, hek, hupd⟩ := updateFirst_spec key value _ e hfe
  rw [update_found dict key value e hfound]
  refine ⟨rfl, rfl, rfl, ?_, pre, post, hchain, hpre, hek, ?_⟩
  · intro j hj
    show Function.update dict.entries (hashIdx key)
        (updateFirst key value (dict.entries (hashIdx key))) j = dict.entries j
    exact Function.update_noteq hj _ _
  · show Function.update dict.entries (hashIdx key)
        (updateFirst key value (dict.entries (hashIdx key))) (hashIdx key)
      = pre ++ ⟨e.key, value⟩ :: post
    rw [Function.update_same]
    exact hupd

/-- Witness for C9: updating key `"a"` to value `"c"` after inserting
`("a", "b")` into the empty dictionary. -/
theorem claim9_update_frame_w :
    (hd_entry_update (hd_entry_insert hd_create [97] [98]).2 [97] [99] true).1
      = .ok ∧
    (hd_entry_update (hd_entry_insert hd_create [97] [98]).2 [97] [99] true).2.num_entries
      = (hd_entry_insert hd_create [97] [98]).2.num_entries ∧
    (hd_entry_update (hd_entry_insert hd_create [97] [98]).2 [97] [99] true).2.collisions
      = (hd_entry_insert hd_create [97] [98]).2.collisions ∧
    (∀ j : Fin HASHSIZE, j ≠ hashIdx [97] →
      (hd_entry_update (hd_entry_insert hd_create [97] [98]).2 [97] [99] true).2.entries j
        = (hd_entry_insert hd_create [97] [98]).2.entries j) ∧
    (∃ pre post,
      (hd_entry_insert hd_create [97] [98]).2.entries (hashIdx [97])
        = pre ++ (⟨[97], [98]⟩ : hd_entry) :: post ∧
      (∀ x ∈ pre, x.key ≠ [97]) ∧ (⟨[97], [98]⟩ : hd_entry).key = [97] ∧
      (hd_entry_update (hd_entry_insert hd_create [97] [98]).2 [97] [99] true).2.entries
          (hashIdx [97])
        = pre ++ (⟨(⟨[97], [98]⟩ : hd_entry).key, [99]⟩ : hd_entry) :: post) :=
  claim9_update_frame (hd_entry_insert hd_create [97] [98]).2 [97] [99]
    ⟨[97], [98]⟩ (by decide)

/-- C7: after any sequence of inserts and removes on a freshly created
dictionary, `num_entries` equals the number of entry nodes reachable
across all bucket chains, which equals the number of live keys — the
keys inserted (a rejected duplicate insert not counting) and not yet
removed.  Since insert rejects duplicates, this holds for arbitrary
sequences, in particular for those with pairwise distinct keys. -/
theorem claim7_entry_count (ops : List HDOp) :
    (runOps hd_create ops).num_entries = totalEntries (runOps hd_create ops) ∧
    totalEntries (runOps hd_create ops) = (runLive [] ops).length := by
  have h := Inv_runOps hd_create [] Inv_create ops
  exact ⟨h.1, h.2.2.2.2.2⟩

/-- C3: evaluation of the source exhibiting the remove byte-counter
mismatch.  Inserting `("a", "b")` into the empty dictionary adds
`(1+1) + (1+1) + 24 = 28` to `alloced_bytes`; removing `"a"` splices the
node out (the bucket is emptied, `num_entries` returns to 0) but
subtracts only `1 + 1 + 24 = 26` — `strlen` without the two string
terminators — leaving the counter at `2` instead of `0`, so remove does
not decrement by the amount insert added. -/
theorem claim3_remove_counter_eval :
    (hd_entry_remove (hd_entry_insert hd_create [97] [98]).2 [97]).1 = .ok ∧
    (hd_entry_remove (hd_entry_insert hd_create [97] [98]).2 [97]).2.num_entries = 0 ∧
    (hd_entry_remove (hd_entry_insert hd_create [97] [98]).2 [97]).2.entries
        (hashIdx [97]) = [] ∧
    (hd_entry_insert hd_create [97] [98]).2.alloced_bytes = 28 ∧
    (hd_entry_remove (hd_entry_insert hd_create [97] [98]).2 [97]).2.alloced_bytes
      = 2 := by
  decide

/-- C5: evaluation of the failure path of insert in which the node
`malloc` succeeds and the key `hd_stralloc` fails, on an empty bucket:
the call returns `-ENOMEM` and every allocation made for the attempt is
released (the node's address is in `freed`), but the bucket head still
holds the address of the freed node — the table keeps a reference to
released memory, because the error path frees the node without resetting
the link that points at it. -/
theorem claim5_insert_failpath_eval :
    (insertOnBucket ⟨[], [], 0⟩ [97] [98] true false true).1 = .ENOMEM ∧
    (insertOnBucket ⟨[], [], 0⟩ [97] [98] true false true).2.freed = [0] ∧
    (insertOnBucket ⟨[], [], 0⟩ [97] [98] true false true).2.chain.map Prod.fst
      = [0] := by
  decide

/-- C6: evaluation of the source exhibiting the teardown byte-counter
mismatch.  After inserting `("a", "b")` into a fresh dictionary the
counter holds 28; teardown does leave zero entries, but
`hd_free_entry_list` subtracts `sizeof(entry->key) + sizeof(entry->value)
+ sizeof(struct hd_entry)` — the pointer field sizes, `8 + 8 + 24 = 40` —
per node instead of the bytes insert added, so the counter ends at `-12`
rather than returning to its initial value `0`. -/
theorem claim6_teardown_counter_eval :
    (hd_free (hd_entry_insert hd_create [97] [98]).2).num_entries = 0 ∧
    (hd_entry_insert hd_create [97] [98]).2.alloced_bytes = 28 ∧
    (hd_free (hd_entry_insert hd_create [97] [98]).2).alloced_bytes = -12 := by
  have hfree := free_insert_empty_bucket hd_create [97] [98] rfl rfl
  have h0 : totalEntries hd_create = 0 := by
    simp [totalEntries, hd_create]
  have hz : (∑ i : Fin HASHSIZE, freeListBytes (hd_create.entries i)) = 0 := by
    simp [hd_create, freeListBytes]
  refine ⟨?_, ?_, ?_⟩
  · rw [hfree.1, h0]
    decide
  · rw [insert_absent hd_create [97] [98] rfl]
    decide
  · rw [hfree.2, hz]
    decide

end Hashdict
